import Mathlib

/-!
Verification of the metapkg dependency-graph resolver and binary closure
validator (shallow embedding of `metapkg/commands/build.py`,
`metapkg/targets/generic/build.py` and `metapkg/packages/repository.py`).
-/

namespace Metapkg

/-- Package names (poetry normalized names). -/
abbrev Name := String

/-- A dependency graph as built in `Build._resolve_deps`: a mapping from a
package name to the set of names it depends on (Python dict of sets,
embedded as an association list whose values are duplicate-free lists). -/
abbrev DepGraph := List (Name × List Name)

/-- Look up the dependency set of a node (`graph[p]`). -/
def DepGraph.depsOf (g : DepGraph) (p : Name) : Option (List Name) :=
  (g.find? (fun e => e.1 == p)).map (fun e => e.2)

/-- `graph[p].remove(d)` — removes the edge `p → d`.  Python raises
`KeyError` when `p` is not a key or `d` is not in the set; this is
modelled by returning `none`. -/
def removeEdge (g : DepGraph) (p d : Name) : Option DepGraph :=
  match g.find? (fun e => e.1 == p) with
  | none => none
  | some e =>
    if d ∈ e.2 then
      some (g.map (fun e' => if e'.1 == p then (e'.1, e.2.filter (fun x => x != d)) else e'))
    else
      none

/-- Result of one `graphlib.TopologicalSorter(graph).static_order()`
attempt: either a linear order, or `CycleError` carrying the reported
cycle (`e.args[1]`). -/
inductive SortResult where
  | ok (order : List Name)
  | cycleFound (cycle : List Name)
deriving DecidableEq

/-- The mutable state of the cycle-breaking loop in `Build._resolve_deps`:
the build graph, `last_cycle`, `current_cycle` and the
`cyclic_runtime_deps` defaultdict (keyed association list, insertion
ordered). -/
structure LoopState where
  graph : DepGraph
  lastCycle : Option (List Name)
  currentCycle : Option (List Name)
  cyclicRuntimeDeps : List (Name × List Name)
deriving DecidableEq

/-- `cyclic_runtime_deps[pkg_with_dep].append(dep)` on a
`defaultdict(list)`. -/
def recordCyclicDep (crd : List (Name × List Name)) (p d : Name) :
    List (Name × List Name) :=
  if crd.any (fun e => e.1 == p) then
    crd.map (fun e => if e.1 == p then (e.1, e.2 ++ [d]) else e)
  else
    crd ++ [(p, [d])]

/-- Outcome of handling one reported cycle. -/
inductive StepOut where
  | raised
  | next (s : LoopState)
deriving DecidableEq

/-- Tail of the cycle handler once the (dependent, dependency) pair has
been fixed: `graph[pkg_with_dep.name].remove(dep.name)`, shifting
`last_cycle`/`current_cycle` and recording the late-injected dependency. -/
def stepRemove (s : LoopState) (cycle : List Name)
    (pkgWithDep dep : Name) : StepOut :=
  match removeEdge s.graph pkgWithDep dep with
  | some g' =>
    .next ⟨g', s.currentCycle, some cycle,
      recordCyclicDep s.cyclicRuntimeDeps pkgWithDep dep⟩
  | none => .raised

/-- The `except graphlib.CycleError` handler body of the cycle-breaking
loop: reject long or previously-seen cycles, pick the last two nodes of
the cycle as (dependency, dependent), swap once if the dependent does not
declare the dependency in `get_cyclic_runtime_deps()`, and remove the
tolerated edge, recording it for late injection.  `cyc` is the package
pool's `get_cyclic_runtime_deps` oracle. -/
def stepCycle (cyc : Name → List Name) (s : LoopState) (cycle : List Name) :
    StepOut :=
  if cycle.length > 3 ∨ some cycle = s.lastCycle then
    .raised
  else
    match cycle.getLast?, cycle[cycle.length - 2]? with
    | some d0, some p0 =>
      if d0 ∈ cyc p0 then
        stepRemove s cycle p0 d0
      else if p0 ∈ cyc d0 then
        stepRemove s cycle d0 p0
      else
        .raised
    | _, _ => .raised

/-- Result of the whole cycle-breaking loop. -/
inductive LoopResult where
  | success (order : List Name) (crd : List (Name × List Name))
  | raised
  | outOfFuel
deriving DecidableEq

/-- The `while True` cycle-breaking loop of `Build._resolve_deps`,
parameterized by the topological sorter (`graphlib`, an external
collaborator) and the cyclic-runtime-dependency declarations.  Fuel makes
the recursion structural; a run that terminates in the source terminates
within any sufficiently large fuel. -/
def cycleBreakLoop (cyc : Name → List Name) (sorter : DepGraph → SortResult) :
    Nat → LoopState → LoopResult
  | 0, _ => .outOfFuel
  | fuel + 1, s =>
    match sorter s.graph with
    | .ok order => .success order s.cyclicRuntimeDeps
    | .cycleFound c =>
      match stepCycle cyc s c with
      | .raised => .raised
      | .next s' => cycleBreakLoop cyc sorter fuel s'

/-- `build_pkgs[i + 1 : i + 1] = cr_deps` after locating the first
occurrence of the dependent package: insert `ds` directly after the first
occurrence of `p` (no change when `p` is absent). -/
def spliceOne (order : List Name) (p : Name) (ds : List Name) : List Name :=
  match order with
  | [] => []
  | x :: rest => if x = p then x :: (ds ++ rest) else x :: spliceOne rest p ds

/-- The final splicing loop of `Build._resolve_deps`: for every recorded
(dependent, late-injected deps) pair, splice the deps right after the
dependent. -/
def spliceAll (crd : List (Name × List Name)) (order : List Name) :
    List Name :=
  crd.foldl (fun acc e => spliceOne acc e.1 e.2) order

/-- Removing the same edge twice is a `KeyError`: after a successful
`graph[p].remove(d)`, a second removal of the same edge fails. -/
lemma removeEdge_removeEdge (g g' : DepGraph) (p d : Name)
    (h : removeEdge g p d = some g') : removeEdge g' p d = none := by
  unfold removeEdge at h
  split at h
  · exact absurd h (by simp)
  · rename_i e hfind
    split at h
    · rename_i hd
      have hg' : g' = g.map (fun e' =>
          if e'.1 == p then (e'.1, e.2.filter (fun x => x != d)) else e') :=
        (Option.some.inj h).symm
      have hcomp : ((fun x : Name × List Name => x.1 == p) ∘
          (fun e' : Name × List Name =>
            if e'.1 == p then (e'.1, e.2.filter (fun x => x != d)) else e'))
          = fun x : Name × List Name => x.1 == p := by
        funext x
        by_cases hk : (x.1 == p) = true <;> simp [Function.comp, hk]
      have hep : (e.1 == p) = true := by
        have := List.find?_some hfind
        simpa using this
      have hfind' : g'.find? (fun x => x.1 == p)
          = some (e.1, e.2.filter (fun x => x != d)) := by
        rw [hg', List.find?_map, hcomp, hfind, Option.map_some']
        simp [hep]
      have hnd : d ∉ e.2.filter (fun x => x != d) := by
        intro hmem
        have := List.mem_filter.mp hmem
        simp at this
      simp only [removeEdge, hfind', if_neg hnd]
    · exact absurd h (by simp)

/-- A successful `stepRemove` leaves the removed edge absent from the
successor state's graph, so removing it again raises `KeyError`. -/
lemma stepRemove_next_removeEdge (s : LoopState) (cycle : List Name)
    (pw d : Name) (s' : LoopState)
    (h : stepRemove s cycle pw d = .next s') :
    removeEdge s'.graph pw d = none := by
  unfold stepRemove at h
  split at h
  · rename_i g' hrem
    rw [← (StepOut.next.inj h)]
    exact removeEdge_removeEdge _ _ _ _ hrem
  · exact absurd h (by simp)

/-- C1: when the sorter reports a cycle whose last two nodes are `d` and
`p` and neither package declares the other in its cyclic-runtime-dependency
set, the cycle-breaking loop raises and produces no build order. -/
theorem c1_two_node_cycle_no_tolerance_fails
    (cyc : Name → List Name) (sorter : DepGraph → SortResult) (fuel : Nat)
    (s : LoopState) (cyl : List Name) (d p : Name)
    (hrep : sorter s.graph = .cycleFound cyl)
    (hd : cyl.getLast? = some d) (hp : cyl[cyl.length - 2]? = some p)
    (hdp : d ∉ cyc p) (hpd : p ∉ cyc d) :
    cycleBreakLoop cyc sorter (fuel + 1) s = .raised := by
  have hstep : stepCycle cyc s cyl = .raised := by
    unfold stepCycle
    split
    · rfl
    · simp [hd, hp, hdp, hpd]
  unfold cycleBreakLoop
  rw [hrep]
  simp only [hstep]

/-- Witness for C1: a 2-node cycle `a ↔ b` with empty tolerance
declarations raises. -/
theorem c1_witness :
    cycleBreakLoop (fun _ => []) (fun _ => .cycleFound ["a", "b", "a"]) 1
      ⟨[("a", ["b"]), ("b", ["a"])], none, none, []⟩ = .raised :=
  c1_two_node_cycle_no_tolerance_fails (fun _ => [])
    (fun _ => .cycleFound ["a", "b", "a"]) 0
    ⟨[("a", ["b"]), ("b", ["a"])], none, none, []⟩
    ["a", "b", "a"] "a" "b" rfl rfl rfl (by simp) (by simp)

/-- C2: a reported cycle longer than 3 entries makes the loop raise at
once, regardless of any declared tolerances. -/
theorem c2_long_cycle_always_fails
    (cyc : Name → List Name) (sorter : DepGraph → SortResult) (fuel : Nat)
    (s : LoopState) (cyl : List Name)
    (hrep : sorter s.graph = .cycleFound cyl) (hlen : 3 < cyl.length) :
    cycleBreakLoop cyc sorter (fuel + 1) s = .raised := by
  have hstep : stepCycle cyc s cyl = .raised := by
    unfold stepCycle
    rw [if_pos (Or.inl hlen)]
  unfold cycleBreakLoop
  rw [hrep]
  simp only [hstep]

/-- Witness for C2: a reported cycle of length 4 fails even though every
package declares every other as a tolerated cyclic runtime dependency. -/
theorem c2_witness :
    cycleBreakLoop (fun _ => ["a", "b", "c"])
      (fun _ => .cycleFound ["a", "b", "c", "a"]) 5
      ⟨[("a", ["c"]), ("b", ["a"]), ("c", ["b"])], none, none, []⟩
      = .raised :=
  c2_long_cycle_always_fails (fun _ => ["a", "b", "c"])
    (fun _ => .cycleFound ["a", "b", "c", "a"]) 4
    ⟨[("a", ["c"]), ("b", ["a"]), ("c", ["b"])], none, none, []⟩
    ["a", "b", "c", "a"] rfl (by simp)

/-- C3: if one attempt handles reported cycle `cyl` by removing an edge and
retrying, and the immediately following attempt reports the identical
cycle `cyl` again, the loop terminates in an error on that attempt (either
the stored-cycle guard fires, or the repeated removal of the already
removed edge fails), so no further edge is removed and no build order is
produced. -/
theorem c3_identical_consecutive_cycle_fails
    (cyc : Name → List Name) (sorter : DepGraph → SortResult) (fuel : Nat)
    (s s' : LoopState) (cyl : List Name)
    (hrep : sorter s.graph = .cycleFound cyl)
    (hstep : stepCycle cyc s cyl = .next s')
    (hrep2 : sorter s'.graph = .cycleFound cyl) :
    cycleBreakLoop cyc sorter (fuel + 1) s' = .raised := by
  have hstep2 : stepCycle cyc s' cyl = .raised := by
    unfold stepCycle at hstep
    split at hstep
    · exact absurd hstep (by simp)
    · rename_i hguard
      split at hstep
      · rename_i d0 p0 hlast hidx
        by_cases h1 : d0 ∈ cyc p0
        · rw [if_pos h1] at hstep
          have hremNone : removeEdge s'.graph p0 d0 = none :=
            stepRemove_next_removeEdge _ _ _ _ _ hstep
          unfold stepCycle
          split
          · rfl
          · simp only [hlast, hidx, if_pos h1]
            simp only [stepRemove, hremNone]
        · rw [if_neg h1] at hstep
          by_cases h2 : p0 ∈ cyc d0
          · rw [if_pos h2] at hstep
            have hremNone : removeEdge s'.graph d0 p0 = none :=
              stepRemove_next_removeEdge _ _ _ _ _ hstep
            unfold stepCycle
            split
            · rfl
            · simp only [hlast, hidx, if_neg h1, if_pos h2]
              simp only [stepRemove, hremNone]
          · rw [if_neg h2] at hstep
            exact absurd hstep (by simp)
      · exact absurd hstep (by simp)
  unfold cycleBreakLoop
  rw [hrep2]
  simp only [hstep2]

/-- Witness for C3: graph `a ↔ b`, with `b` tolerating `a`; the first
attempt removes the edge `b → a`, and a second report of the identical
cycle `[a, b, a]` makes the loop raise. -/
theorem c3_witness :
    cycleBreakLoop (fun n => if n = "b" then ["a"] else [])
      (fun _ => .cycleFound ["a", "b", "a"]) 1
      ⟨[("a", ["b"]), ("b", [])], none, some ["a", "b", "a"],
        [("b", ["a"])]⟩ = .raised :=
  c3_identical_consecutive_cycle_fails
    (fun n => if n = "b" then ["a"] else [])
    (fun _ => .cycleFound ["a", "b", "a"]) 0
    ⟨[("a", ["b"]), ("b", ["a"])], none, none, []⟩
    ⟨[("a", ["b"]), ("b", [])], none, some ["a", "b", "a"],
      [("b", ["a"])]⟩
    ["a", "b", "a"] rfl (by decide) rfl

lemma spliceOne_append_not_mem (A B : List Name) (q : Name) (ds : List Name)
    (h : q ∉ A) : spliceOne (A ++ B) q ds = A ++ spliceOne B q ds := by
  induction A with
  | nil => rfl
  | cons x A ih =>
    have hx : x ≠ q := fun hxq => h (hxq ▸ List.mem_cons_self x A)
    have hA : q ∉ A := fun hq => h (List.mem_cons_of_mem x hq)
    simp only [List.cons_append, spliceOne, if_neg hx, List.append_eq, ih hA]

lemma spliceOne_append_mem (A B : List Name) (q : Name) (ds : List Name)
    (h : q ∈ A) : spliceOne (A ++ B) q ds = spliceOne A q ds ++ B := by
  induction A with
  | nil => exact absurd h (List.not_mem_nil q)
  | cons x A ih =>
    by_cases hx : x = q
    · simp only [List.cons_append, spliceOne, if_pos hx, List.append_eq,
        List.append_assoc]
    · have hA : q ∈ A := by
        rcases List.mem_cons.mp h with h' | h'
        · exact absurd h'.symm hx
        · exact h'
      simp only [List.cons_append, spliceOne, if_neg hx, List.append_eq, ih hA]

lemma spliceOne_first_occ (order : List Name) (p : Name) (ds : List Name)
    (h : p ∈ order) : ∃ l₁ l₂, p ∉ l₁ ∧ order = l₁ ++ p :: l₂ ∧
      spliceOne order p ds = l₁ ++ p :: (ds ++ l₂) := by
  induction order with
  | nil => exact absurd h (List.not_mem_nil p)
  | cons x rest ih =>
    by_cases hx : x = p
    · refine ⟨[], rest, List.not_mem_nil p, by simp [hx], ?_⟩
      simp [spliceOne, hx]
    · have hrest : p ∈ rest := by
        rcases List.mem_cons.mp h with h' | h'
        · exact absurd h'.symm hx
        · exact h'
      obtain ⟨l₁, l₂, hnm, heq, hspl⟩ := ih hrest
      refine ⟨x :: l₁, l₂, ?_, ?_, ?_⟩
      · intro hmem
        rcases List.mem_cons.mp hmem with h' | h'
        · exact hx h'.symm
        · exact hnm h'
      · simp [heq]
      · simp only [spliceOne, if_neg hx, hspl, List.cons_append]

lemma count_spliceOne (order : List Name) (q r : Name) (ds : List Name)
    (h : r ∉ ds) : (spliceOne order q ds).count r = order.count r := by
  induction order with
  | nil => rfl
  | cons x rest ih =>
    by_cases hx : x = q
    · simp only [spliceOne, if_pos hx, List.count_cons, List.count_append,
        List.count_eq_zero.mpr h]
      omega
    · simp only [spliceOne, if_neg hx, List.count_cons, ih]

lemma spliceOne_block (l₁ l₂ ds : List Name) (p q : Name) (ds' : List Name)
    (hqp : q ≠ p) (hqds : q ∉ ds) :
    ∃ l₁' l₂', spliceOne (l₁ ++ p :: (ds ++ l₂)) q ds'
      = l₁' ++ p :: (ds ++ l₂') := by
  by_cases hq : q ∈ l₁
  · exact ⟨spliceOne l₁ q ds', l₂, spliceOne_append_mem _ _ _ _ hq⟩
  · refine ⟨l₁, spliceOne l₂ q ds', ?_⟩
    rw [spliceOne_append_not_mem _ _ _ _ hq]
    have hp : p ≠ q := fun hpq => hqp hpq.symm
    simp only [spliceOne, if_neg hp]
    rw [spliceOne_append_not_mem _ _ _ _ hqds]

lemma spliceAll_block (crd : List (Name × List Name)) (p : Name)
    (ds : List Name) (h : ∀ e ∈ crd, e.1 ≠ p ∧ e.1 ∉ ds) :
    ∀ l₁ l₂, ∃ l₁' l₂',
      spliceAll crd (l₁ ++ p :: (ds ++ l₂)) = l₁' ++ p :: (ds ++ l₂') := by
  induction crd with
  | nil => exact fun l₁ l₂ => ⟨l₁, l₂, rfl⟩
  | cons a rest ih =>
    intro l₁ l₂
    obtain ⟨ha1, ha2⟩ := h a (List.mem_cons_self a rest)
    obtain ⟨l₁', l₂', hspl⟩ := spliceOne_block l₁ l₂ ds p a.1 a.2 ha1 ha2
    have : spliceAll (a :: rest) (l₁ ++ p :: (ds ++ l₂))
        = spliceAll rest (spliceOne (l₁ ++ p :: (ds ++ l₂)) a.1 a.2) := rfl
    rw [this, hspl]
    exact ih (fun e he => h e (List.mem_cons_of_mem a he)) l₁' l₂'

lemma spliceAll_block_main (crd : List (Name × List Name)) :
    ∀ (order : List Name),
    (crd.map Prod.fst).Nodup →
    (∀ e ∈ crd, ∀ e' ∈ crd, e'.1 ∉ e.2) →
    (∀ e ∈ crd, order.count e.1 = 1) →
    ∀ e ∈ crd, ∃ l₁ l₂, spliceAll crd order = l₁ ++ e.1 :: (e.2 ++ l₂) := by
  induction crd with
  | nil => intro order _ _ _ e he; exact absurd he (List.not_mem_nil e)
  | cons a rest ih =>
    intro order hkeys hnk hcount e he
    have hmem_a : a.1 ∈ order := by
      have := hcount a (List.mem_cons_self a rest)
      have hpos : 0 < order.count a.1 := by omega
      exact List.count_pos_iff.mp hpos
    obtain ⟨l₁, l₂, hnm, heq, hspl⟩ := spliceOne_first_occ order a.1 a.2 hmem_a
    have hstep : spliceAll (a :: rest) order
        = spliceAll rest (spliceOne order a.1 a.2) := rfl
    rcases List.mem_cons.mp he with he' | he'
    · subst he'
      rw [hstep, hspl]
      have hfk : ∀ f ∈ rest, f.1 ≠ e.1 ∧ f.1 ∉ e.2 := by
        intro f hf
        constructor
        · intro hfe
          have := List.nodup_cons.mp hkeys
          exact this.1 (hfe ▸ List.mem_map_of_mem Prod.fst hf)
        · exact hnk e (List.mem_cons_self e rest) f (List.mem_cons_of_mem e hf)
      obtain ⟨l₁', l₂', h'⟩ := spliceAll_block rest e.1 e.2 hfk l₁ l₂
      exact ⟨l₁', l₂', h'⟩
    · rw [hstep]
      refine ih (spliceOne order a.1 a.2) (List.nodup_cons.mp hkeys).2
        (fun f hf f' hf' =>
          hnk f (List.mem_cons_of_mem a hf) f' (List.mem_cons_of_mem a hf'))
        ?_ e he'
      intro f hf
      have hfa : f.1 ∉ a.2 :=
        hnk a (List.mem_cons_self a rest) f (List.mem_cons_of_mem a hf)
      rw [count_spliceOne order a.1 f.1 a.2 hfa]
      exact hcount f (List.mem_cons_of_mem a hf)

/-- Counterexample to C4 as stated: with chained 2-node cycles the
recorded map `{p: [x, y], x: [z]}` is reachable after a successful sort;
splicing it into the sorted order `[p, x, y, z]` inserts `z` after the
first occurrence of `x`, which lies inside `p`'s freshly spliced partner
block, so `p`'s recorded partner `y` does *not* directly follow `p`: no
decomposition of the final order has the block `[x, y]` immediately
after `p`. -/
theorem c4_counterexample :
    spliceAll [("p", ["x", "y"]), ("x", ["z"])] ["p", "x", "y", "z"]
      = ["p", "x", "z", "y", "x", "y", "z"]
    ∧ ¬ ∃ l₁ l₂ : List Name,
        spliceAll [("p", ["x", "y"]), ("x", ["z"])] ["p", "x", "y", "z"]
          = l₁ ++ "p" :: (["x", "y"] ++ l₂) := by
  refine ⟨rfl, ?_⟩
  rintro ⟨l₁, l₂, h⟩
  rw [show spliceAll [("p", ["x", "y"]), ("x", ["z"])] ["p", "x", "y", "z"]
      = ["p", "x", "z", "y", "x", "y", "z"] from rfl] at h
  cases l₁ with
  | nil =>
    simp only [List.nil_append, List.cons_append] at h
    injection h with h1 h
    injection h with h2 h
    injection h with h3 h
    exact absurd h3 (by decide)
  | cons a l₁' =>
    rw [List.cons_append] at h
    injection h with h1 h2
    have hmem : ("p" : Name)
        ∈ (["x", "z", "y", "x", "y", "z"] : List Name) := by
      rw [h2]
      exact List.mem_append_right l₁' (List.mem_cons_self _ _)
    exact absurd hmem (by decide)

/-- C4 (amended): after the build-graph sort succeeds, each recorded
late-injected dependency list is spliced directly after the first
occurrence of its dependent; in the final build order every recorded
cyclic partner of a package directly follows the package *provided* no
recorded dependent is itself a recorded late-injected dependency of
another (the chained-cycles situation of the counterexample, where a
later splice can land inside an earlier partner block).  The remaining
hypotheses hold at that point in the source: the recorded dependents are
dict keys (distinct) and each occurs in the duplicate-free sorted
order. -/
theorem c4_late_injected_deps_follow_dependent
    (crd : List (Name × List Name)) (order : List Name)
    (hkeys : (crd.map Prod.fst).Nodup)
    (hmem : ∀ e ∈ crd, e.1 ∈ order)
    (hnodup : order.Nodup)
    (hnk : ∀ e ∈ crd, ∀ e' ∈ crd, e'.1 ∉ e.2) :
    ∀ e ∈ crd, ∃ l₁ l₂, spliceAll crd order = l₁ ++ e.1 :: (e.2 ++ l₂) := by
  have hcount : ∀ e ∈ crd, order.count e.1 = 1 := fun e he =>
    List.count_eq_one_of_mem hnodup (hmem e he)
  exact spliceAll_block_main crd order hkeys hnk hcount

/-- Witness for C4: splicing `[("b", ["a"])]` into the order `[a, b, c]`
puts `a` directly after `b`. -/
theorem c4_witness :
    ∃ l₁ l₂, spliceAll [("b", ["a"])] ["a", "b", "c"]
      = l₁ ++ "b" :: (["a"] ++ l₂) := by
  have h := c4_late_injected_deps_follow_dependent [("b", ["a"])]
    ["a", "b", "c"] (by simp) (by simp) (by simp)
    (by intro e he e' he'; simp at he he'; simp [he, he'])
    ("b", ["a"]) (by simp)
  exact h

/-- A resolved package as relevant to `Build._check_dep_consistency`:
poetry package identity is (name, version). -/
structure RPkg where
  name : Name
  version : String
deriving DecidableEq

/-- `build_dep_index = {pkg.name: pkg for pkg in build_pkgs}`: a dict
comprehension keeps the binding of the last occurrence of a name. -/
def buildDepIndex (buildPkgs : List RPkg) (n : Name) : Option RPkg :=
  buildPkgs.reverse.find? (fun p => p.name == n)

/-- `Build._check_dep_consistency`: every package appearing in both the
install list and the build list with differing versions contributes a
forced dependency on the build-time version. -/
def checkDepConsistency (packages buildPkgs : List RPkg) : List RPkg :=
  packages.filterMap (fun pkg =>
    (buildDepIndex buildPkgs pkg.name).bind (fun bd =>
      if bd.version ≠ pkg.version then some ⟨bd.name, bd.version⟩ else none))

/-- Outcome of the resolution part of `Build.handle`. -/
inductive HandleResult where
  | ok (packages buildPkgs : List RPkg)
  | failed (msgs : List String)
deriving DecidableEq

/-- The dependency-resolution skeleton of `Build.handle`: resolve, check
cross-graph consistency, re-resolve once with the mismatched build-time
versions forced into the root requirements, check again, and fail listing
the remaining mismatches in PEP-508 form.  `resolve` abstracts
`_resolve_deps` as a function of the extra forced dependencies, and
`toPep` abstracts `Dependency.to_pep_508`. -/
def handleResolve (resolve : List RPkg → List RPkg × List RPkg)
    (toPep : RPkg → String) : HandleResult :=
  let pr := resolve []
  let rr := checkDepConsistency pr.1 pr.2
  let pr2 := if rr.isEmpty then pr else resolve rr
  let rr2 := checkDepConsistency pr2.1 pr2.2
  if rr2.isEmpty then .ok pr2.1 pr2.2 else .failed (rr2.map toPep)

lemma mem_checkDepConsistency (ps bs : List RPkg) (d : RPkg) :
    d ∈ checkDepConsistency ps bs ↔
      ∃ pkg ∈ ps, buildDepIndex bs pkg.name = some d
        ∧ d.version ≠ pkg.version := by
  unfold checkDepConsistency
  rw [List.mem_filterMap]
  constructor
  · rintro ⟨pkg, hpkg, hmap⟩
    rw [Option.bind_eq_some] at hmap
    obtain ⟨bd, hidx, hif⟩ := hmap
    by_cases hv : bd.version ≠ pkg.version
    · rw [if_pos hv] at hif
      have hd : d = bd := (Option.some.inj hif).symm
      exact ⟨pkg, hpkg, by rw [hd]; exact hidx, by rw [hd]; exact hv⟩
    · rw [if_neg hv] at hif
      exact absurd hif (by simp)
  · rintro ⟨pkg, hpkg, hidx, hv⟩
    refine ⟨pkg, hpkg, ?_⟩
    rw [hidx, Option.some_bind, if_pos hv]

/-- C5: when the first resolution leaves a cross-graph version mismatch,
`Build.handle` (i) re-runs the resolution exactly once, forcing exactly
the collected (name, build-time-version) pairs, and fails permanently
listing every remaining mismatch in PEP-508 form; (ii) the collected
pairs are exactly the build-time versions of packages appearing in both
orders with differing versions; (iii) the outcome depends only on the two
resolver invocations, so no second retry is ever attempted. -/
theorem c5_cross_graph_single_retry
    (resolve resolve' : List RPkg → List RPkg × List RPkg)
    (toPep : RPkg → String) (rr rr2 : List RPkg) (pr2 : List RPkg × List RPkg)
    (hrr : rr = checkDepConsistency (resolve []).1 (resolve []).2)
    (hmis : rr ≠ [])
    (hpr2 : pr2 = resolve rr)
    (hrr2 : rr2 = checkDepConsistency pr2.1 pr2.2) :
    (handleResolve resolve toPep
      = if rr2.isEmpty then .ok pr2.1 pr2.2 else .failed (rr2.map toPep))
    ∧ (∀ d, d ∈ rr ↔ ∃ pkg ∈ (resolve []).1,
        buildDepIndex (resolve []).2 pkg.name = some d
          ∧ d.version ≠ pkg.version)
    ∧ (resolve' [] = resolve [] → resolve' rr = resolve rr →
        handleResolve resolve' toPep = handleResolve resolve toPep) := by
  have hemp : rr.isEmpty = false := by
    cases rr with
    | nil => exact absurd rfl hmis
    | cons a l => rfl
  refine ⟨?_, ?_, ?_⟩
  · unfold handleResolve
    simp only [← hrr, hemp, Bool.false_eq_true, if_false, ← hpr2, ← hrr2]
  · intro d
    rw [hrr]
    exact mem_checkDepConsistency _ _ d
  · intro h1 h2
    unfold handleResolve
    simp only [h1, ← hrr, h2]

/-- Witness for C5: package `x` resolves to 1.0 at install time and 1.1 at
build time; the forced retry still mismatches, so the build fails
reporting the remaining mismatch in PEP-508 form. -/
theorem c5_witness :
    handleResolve
      (fun l => if l.isEmpty then ([⟨"x", "1.0"⟩], [⟨"x", "1.1"⟩])
                else ([⟨"x", "1.1"⟩], [⟨"x", "1.0"⟩]))
      (fun p => p.name ++ " (==" ++ p.version ++ ")")
      = .failed ["x (==1.0)"] := by
  have h := c5_cross_graph_single_retry
      (fun l => if l.isEmpty then ([⟨"x", "1.0"⟩], [⟨"x", "1.1"⟩])
                else ([⟨"x", "1.1"⟩], [⟨"x", "1.0"⟩]))
      (fun l => if l.isEmpty then ([⟨"x", "1.0"⟩], [⟨"x", "1.1"⟩])
                else ([⟨"x", "1.1"⟩], [⟨"x", "1.0"⟩]))
      (fun p => p.name ++ " (==" ++ p.version ++ ")")
      [⟨"x", "1.1"⟩] [⟨"x", "1.0"⟩] ([⟨"x", "1.1"⟩], [⟨"x", "1.0"⟩])
      (by decide) (by decide) (by decide) (by decide)
  rw [h.1]
  decide

/-- A poetry requirement as used when constructing the dependency graphs:
a target name, an environment marker (abstract, tested through
`env.is_valid_for_marker`), and poetry's activation state
(`req.is_activated()`). -/
structure Req where
  name : Name
  marker : Nat
  activated : Bool
deriving DecidableEq

/-- A package of a resolved package set with its runtime requirements
(`dep_package.requires`) and its build requirements
(`get_build_requirements(dep_package)`). -/
structure RPackage where
  name : Name
  requires : List Req
  breqs : List Req
deriving DecidableEq

/-- First graph of `Build._resolve_deps` (install order): each resolved
package maps to the names of its marker-satisfied runtime requirements. -/
def installGraph (markerOk : Nat → Bool) (resolution : List RPackage) :
    DepGraph :=
  resolution.map (fun p =>
    (p.name, (p.requires.filter (fun r => markerOk r.marker)).map Req.name))

/-- Second graph of `Build._resolve_deps` (build order): runtime and build
requirements merged, keeping only activated, marker-satisfied
requirements, and excluding self-referential edges (poetry inserts a
package dependency on itself for dependencies with extras). -/
def buildGraph (markerOk : Nat → Bool) (resolution : List RPackage) :
    DepGraph :=
  resolution.map (fun p =>
    (p.name, ((p.requires ++ p.breqs).filter (fun r =>
      r.activated && markerOk r.marker && r.name != p.name)).map Req.name))

/-- Nodes not yet emitted all of whose dependencies are emitted. -/
def readyNodes (g : DepGraph) (emitted : List Name) : List Name :=
  (g.filter (fun e => !(emitted.contains e.1)
    && e.2.all (fun d => emitted.contains d))).map Prod.fst

/-- Round-based Kahn sort modelling the observable behaviour of
`graphlib.TopologicalSorter.static_order()` (an external collaborator):
emit every ready node each round; when no node is ready and unemitted
nodes remain, a cycle exists (`CycleError`, here `none`). -/
def topoRounds (g : DepGraph) : Nat → List Name → Option (List Name)
  | 0, emitted =>
    if g.all (fun e => emitted.contains e.1) then some emitted else none
  | n + 1, emitted =>
    if (readyNodes g emitted).isEmpty then
      if g.all (fun e => emitted.contains e.1) then some emitted else none
    else
      topoRounds g n (emitted ++ readyNodes g emitted)

/-- `graphlib.TopologicalSorter(graph).static_order()`. -/
def staticOrder (g : DepGraph) : Option (List Name) :=
  topoRounds g g.length []

/-- Every dependency of a node precedes each occurrence of the node. -/
def TopoInv (g : DepGraph) (order : List Name) : Prop :=
  ∀ e ∈ g, ∀ d ∈ e.2, ∀ l₁ l₂, order = l₁ ++ e.1 :: l₂ → d ∈ l₁

lemma mem_readyNodes (g : DepGraph) (emitted : List Name) (x : Name)
    (h : x ∈ readyNodes g emitted) :
    ∃ e ∈ g, e.1 = x ∧ ∀ d ∈ e.2, d ∈ emitted := by
  unfold readyNodes at h
  rw [List.mem_map] at h
  obtain ⟨e, he, hex⟩ := h
  rw [List.mem_filter] at he
  have hp := he.2
  simp only [Bool.and_eq_true, List.all_eq_true] at hp
  refine ⟨e, he.1, hex, fun d hd => ?_⟩
  have := hp.2 d hd
  simpa using this

lemma entry_eq_of_keys_nodup (g : DepGraph)
    (hkeys : (g.map Prod.fst).Nodup) {e e' : Name × List Name}
    (he : e ∈ g) (he' : e' ∈ g) (h : e.1 = e'.1) : e = e' :=
  List.inj_on_of_nodup_map hkeys he he' h

lemma topoInv_append (g : DepGraph) (hkeys : (g.map Prod.fst).Nodup)
    (emitted : List Name) (hinv : TopoInv g emitted) :
    TopoInv g (emitted ++ readyNodes g emitted) := by
  intro e he d hd l₁ l₂ heq
  by_cases hlen : l₁.length < emitted.length
  · have hpre1 : l₁ <+: emitted :=
      List.prefix_of_prefix_length_le ⟨e.1 :: l₂, heq.symm⟩
        (List.prefix_append _ _) (Nat.le_of_lt hlen)
    obtain ⟨m, hm⟩ := hpre1
    cases m with
    | nil => rw [← hm] at hlen; simp at hlen
    | cons a m' =>
      have hem : emitted = l₁ ++ a :: m' := hm.symm
      have hc : l₁ ++ (a :: (m' ++ readyNodes g emitted))
          = l₁ ++ (e.1 :: l₂) := by
        calc l₁ ++ (a :: (m' ++ readyNodes g emitted))
            = (l₁ ++ a :: m') ++ readyNodes g emitted := by
              simp [List.append_assoc]
          _ = emitted ++ readyNodes g emitted := by rw [← hem]
          _ = l₁ ++ (e.1 :: l₂) := heq
      have hae := List.append_cancel_left hc
      have ha : a = e.1 := (List.cons.inj hae).1
      exact hinv e he d hd l₁ m' (by rw [hem, ha])
  · push_neg at hlen
    have hpre1 : emitted <+: l₁ :=
      List.prefix_of_prefix_length_le (List.prefix_append _ _)
        ⟨e.1 :: l₂, heq.symm⟩ hlen
    obtain ⟨m, hm⟩ := hpre1
    have hready : readyNodes g emitted = m ++ e.1 :: l₂ := by
      refine @List.append_cancel_left _ emitted _ _ ?_
      rw [heq, ← hm, List.append_assoc]
    have hmem : e.1 ∈ readyNodes g emitted := by
      rw [hready]
      exact List.mem_append_right m (List.mem_cons_self _ _)
    obtain ⟨e', he', hex, hdeps⟩ := mem_readyNodes g emitted e.1 hmem
    have hee : e' = e := entry_eq_of_keys_nodup g hkeys he' he hex
    have hdm : d ∈ emitted := hdeps d (by rw [hee]; exact hd)
    rw [← hm]
    exact List.mem_append_left m hdm

lemma topoRounds_inv (g : DepGraph) (hkeys : (g.map Prod.fst).Nodup) :
    ∀ (n : Nat) (emitted order : List Name),
    topoRounds g n emitted = some order → TopoInv g emitted →
    TopoInv g order := by
  intro n
  induction n with
  | zero =>
    intro emitted order h hinv
    unfold topoRounds at h
    split at h
    · rw [← Option.some.inj h]; exact hinv
    · exact absurd h (by simp)
  | succ n ih =>
    intro emitted order h hinv
    unfold topoRounds at h
    split at h
    · split at h
      · rw [← Option.some.inj h]; exact hinv
      · exact absurd h (by simp)
    · exact ih _ order h (topoInv_append g hkeys emitted hinv)

lemma topoRounds_complete (g : DepGraph) :
    ∀ (n : Nat) (emitted order : List Name),
    topoRounds g n emitted = some order → ∀ e ∈ g, e.1 ∈ order := by
  intro n
  induction n with
  | zero =>
    intro emitted order h e he
    unfold topoRounds at h
    split at h
    · rename_i hall
      rw [← Option.some.inj h]
      rw [List.all_eq_true] at hall
      simpa using hall e he
    · exact absurd h (by simp)
  | succ n ih =>
    intro emitted order h e he
    unfold topoRounds at h
    split at h
    · split at h
      · rename_i hall
        rw [← Option.some.inj h]
        rw [List.all_eq_true] at hall
        simpa using hall e he
      · exact absurd h (by simp)
    · exact ih _ order h e he

lemma indexOf_lt_of_mem_take (l : List Name) (b : Name) :
    ∀ k, b ∈ l.take k → l.indexOf b < k := by
  induction l with
  | nil => intro k h; simp at h
  | cons x xs ih =>
    intro k h
    cases k with
    | zero => simp at h
    | succ n =>
      rw [List.take_succ_cons] at h
      by_cases hbx : x = b
      · simp [List.indexOf_cons, hbx]
      · have hfalse : (x == b) = false := by simp [hbx]
        rw [List.indexOf_cons, hfalse, cond_false]
        have hb : b ∈ xs.take n := by
          rcases List.mem_cons.mp h with h' | h'
          · exact absurd h'.symm hbx
          · exact h'
        have := ih n hb
        omega

lemma take_indexOf_append (l : List Name) (a : Name) (h : a ∈ l) :
    l = l.take (l.indexOf a) ++ a :: l.drop (l.indexOf a + 1) := by
  have hlt : l.indexOf a < l.length := List.indexOf_lt_length.mpr h
  have hget : l[l.indexOf a] = a := List.getElem_indexOf hlt
  calc l = l.take (l.indexOf a) ++ l.drop (l.indexOf a) :=
        (List.take_append_drop _ _).symm
    _ = l.take (l.indexOf a)
        ++ (l[l.indexOf a] :: l.drop (l.indexOf a + 1)) := by
        rw [List.getElem_cons_drop _ _ hlt]
    _ = l.take (l.indexOf a) ++ a :: l.drop (l.indexOf a + 1) := by
        rw [hget]

/-- C8: the install order produced by the first topological sort is a
linearization of the marker-filtered runtime dependency graph: every
marker-satisfied requirement of a resolved package occurs in the order
strictly before the package, and the graph's edges are exactly the
marker-satisfied requirement names, so unsatisfied edges impose no
ordering constraint. -/
theorem c8_install_order_topological
    (markerOk : Nat → Bool) (resolution : List RPackage) (order : List Name)
    (hkeys : ((installGraph markerOk resolution).map Prod.fst).Nodup)
    (hsort : staticOrder (installGraph markerOk resolution) = some order) :
    (∀ p ∈ resolution, ∀ r ∈ p.requires, markerOk r.marker = true →
      r.name ∈ order ∧ p.name ∈ order
        ∧ order.indexOf r.name < order.indexOf p.name)
    ∧ (∀ e ∈ installGraph markerOk resolution, ∃ p ∈ resolution,
        e.1 = p.name ∧ ∀ n, (n ∈ e.2 ↔
          ∃ r ∈ p.requires, markerOk r.marker = true ∧ r.name = n)) := by
  have hinv : TopoInv (installGraph markerOk resolution) order :=
    topoRounds_inv _ hkeys _ [] order hsort
      (fun e _ d _ l₁ l₂ heq => absurd heq (by simp))
  constructor
  · intro p hp r hr hm
    have hentry : (p.name,
        (p.requires.filter (fun r => markerOk r.marker)).map Req.name)
        ∈ installGraph markerOk resolution := by
      unfold installGraph
      exact List.mem_map_of_mem _ hp
    have hd : r.name ∈ (p.requires.filter
        (fun r => markerOk r.marker)).map Req.name := by
      exact List.mem_map_of_mem Req.name (List.mem_filter.mpr ⟨hr, hm⟩)
    have hmemP : p.name ∈ order :=
      topoRounds_complete _ _ [] order hsort _ hentry
    have hinvP : ∀ l₁ l₂, order = l₁ ++ p.name :: l₂ → r.name ∈ l₁ :=
      fun l₁ l₂ heq => hinv _ hentry r.name hd l₁ l₂ heq
    have hdec := take_indexOf_append order p.name hmemP
    have hbtake : r.name ∈ order.take (order.indexOf p.name) := hinvP _ _ hdec
    refine ⟨List.mem_of_mem_take hbtake, hmemP, ?_⟩
    exact indexOf_lt_of_mem_take order r.name (order.indexOf p.name) hbtake
  · intro e he
    unfold installGraph at he
    rw [List.mem_map] at he
    obtain ⟨p, hp, hep⟩ := he
    refine ⟨p, hp, by rw [← hep], fun n => ?_⟩
    rw [← hep]
    constructor
    · intro hmem
      simp only [List.mem_map, List.mem_filter] at hmem
      obtain ⟨r, ⟨hrmem, hrm⟩, hrn⟩ := hmem
      exact ⟨r, hrmem, hrm, hrn⟩
    · rintro ⟨r, hrmem, hrm, hrn⟩
      simp only [List.mem_map, List.mem_filter]
      exact ⟨r, ⟨hrmem, hrm⟩, hrn⟩

/-- Witness for C8: package `a` requires `b` under a satisfied marker; the
sort yields `[b, a]` and `b` precedes `a`. -/
theorem c8_witness :
    ("b" : Name) ∈ ["b", "a"] ∧ ("a" : Name) ∈ ["b", "a"]
      ∧ List.indexOf "b" ["b", "a"] < List.indexOf "a" ["b", "a"] := by
  have h := c8_install_order_topological (fun _ => true)
      [⟨"a", [⟨"b", 0, true⟩], []⟩, ⟨"b", [], []⟩] ["b", "a"]
      (by decide) (by decide)
  exact h.1 ⟨"a", [⟨"b", 0, true⟩], []⟩ (by simp) ⟨"b", 0, true⟩
    (by simp) rfl

/-- C9: an entry of the build-time dependency graph never records a
self-referential edge — even when the requirement list contains a
dependency of the package on itself — and an edge is recorded exactly for
the activated, marker-satisfied, non-self requirements (runtime or
build). -/
theorem c9_build_graph_no_self_edges
    (markerOk : Nat → Bool) (resolution : List RPackage)
    (e : Name × List Name) (he : e ∈ buildGraph markerOk resolution) :
    e.1 ∉ e.2 ∧ ∃ p ∈ resolution, e.1 = p.name ∧ ∀ n,
      (n ∈ e.2 ↔ ∃ r ∈ p.requires ++ p.breqs,
        r.activated = true ∧ markerOk r.marker = true ∧ r.name = n
          ∧ n ≠ p.name) := by
  unfold buildGraph at he
  rw [List.mem_map] at he
  obtain ⟨p, hp, hep⟩ := he
  constructor
  · rw [← hep]
    intro hmem
    simp only [List.mem_map, List.mem_filter, Bool.and_eq_true,
      bne_iff_ne] at hmem
    obtain ⟨r, ⟨_, ⟨_, _⟩, hne⟩, hrn⟩ := hmem
    exact hne hrn
  · refine ⟨p, hp, by rw [← hep], fun n => ?_⟩
    rw [← hep]
    constructor
    · intro hmem
      simp only [List.mem_map, List.mem_filter, Bool.and_eq_true,
        bne_iff_ne] at hmem
      obtain ⟨r, ⟨hrmem, ⟨hact, hmk⟩, hne⟩, hrn⟩ := hmem
      exact ⟨r, hrmem, hact, hmk, hrn, hrn ▸ hne⟩
    · rintro ⟨r, hrmem, hact, hmk, hrn, hne⟩
      simp only [List.mem_map, List.mem_filter, Bool.and_eq_true,
        bne_iff_ne]
      exact ⟨r, ⟨hrmem, ⟨hact, hmk⟩, hrn ▸ hne⟩, hrn⟩

/-- Witness for C9: a package whose solver requirements include a
dependency on itself still gets no self edge. -/
theorem c9_witness : ("a" : Name) ∉ (["b"] : List Name) :=
  (c9_build_graph_no_self_edges (fun _ => true)
    [⟨"a", [⟨"a", 0, true⟩, ⟨"b", 0, true⟩], []⟩]
    ("a", ["b"]) (by decide)).1

/-- A poetry repository's package list (`Repository._packages`); package
identity is (name, version), embedded as `RPkg`. -/
abbrev Repo := List RPkg

/-- `poetry_repo.Repository.has_package` (external collaborator,
modelled at its interface): whether a package with the same identity is
already present. -/
def has_package (r : Repo) (p : RPkg) : Bool := r.contains p

/-- `BundleRepository.add_package`: add the package only when the
repository does not already have it (the base-class `add_package` of the
external collaborator appends to the package list). -/
def add_package (r : Repo) (p : RPkg) : Repo :=
  if has_package r p then r else r ++ [p]

lemma add_package_of_mem (r : Repo) (p : RPkg) (h : p ∈ r) :
    add_package r p = r := by
  unfold add_package has_package
  rw [if_pos (by simpa using h)]

lemma mem_add_package (r : Repo) (p : RPkg) : p ∈ add_package r p := by
  unfold add_package has_package
  split
  · rename_i hc
    simpa using hc
  · simp

/-- C10: `BundleRepository.add_package` is idempotent at the repository
interface: adding a package the repository already has leaves it
unchanged, adding the same package twice equals adding it once, and
adding never introduces a duplicate entry (so the bundled repository,
which starts empty, never contains a package twice). -/
theorem c10_add_package_idempotent (r : Repo) (p : RPkg) :
    (p ∈ r → add_package r p = r)
    ∧ add_package (add_package r p) p = add_package r p
    ∧ (r.Nodup → (add_package r p).Nodup) := by
  refine ⟨add_package_of_mem r p,
    add_package_of_mem _ p (mem_add_package r p), ?_⟩
  intro hnd
  unfold add_package has_package
  split
  · exact hnd
  · rename_i hc
    have hp : p ∉ r := by simpa using hc
    simp [List.nodup_append, hnd, hp]

/-- Witness for C10: adding `("a", "1")` to a repository already holding
it changes nothing, double-add equals single add, and no duplicates
appear. -/
theorem c10_witness :
    add_package [(⟨"a", "1"⟩ : RPkg)] ⟨"a", "1"⟩ = [⟨"a", "1"⟩]
      ∧ add_package (add_package [(⟨"a", "1"⟩ : RPkg)] ⟨"a", "1"⟩) ⟨"a", "1"⟩
          = add_package [(⟨"a", "1"⟩ : RPkg)] ⟨"a", "1"⟩
      ∧ (add_package [(⟨"a", "1"⟩ : RPkg)] ⟨"a", "1"⟩).Nodup := by
  have h := c10_add_package_idempotent [⟨"a", "1"⟩] ⟨"a", "1"⟩
  exact ⟨h.1 (by simp), h.2.1, h.2.2 (by simp)⟩

/-! ### Binary closure validator (`targets/generic/build.py`,
`Build._fixup_binaries`)

Paths are install-absolute component lists inside the package image
(`root = pathlib.Path("/")`); the image-root prefix is dropped since it
is a fixed bijection.  Regular files carry their byte content abstractly
as a tag. -/

/-- A filesystem path inside the package image, as components. -/
abbrev IPath := List String

/-- A file of the package image: a regular file (with its contents) or a
symbolic link (with an absolute or relative link target). -/
inductive FileKind where
  | regular (content : String)
  | symlink (isAbs : Bool) (target : IPath)
deriving DecidableEq

/-- The package image as listed by `_list_installed_files` (regular files
and symlinks), with the kind of each path. -/
abbrev FS := List (IPath × FileKind)

/-- `pathlib.Path.resolve()` on a not-necessarily-existing path: lexical
normalization of `.` and `..` components, rooted at the image root. -/
def normPath (p : IPath) : IPath :=
  p.foldl (fun acc comp =>
    if comp = "." then acc
    else if comp = ".." then acc.dropLast
    else acc ++ [comp]) []

/-- `path.name` — the basename of a path. -/
def basename (p : IPath) : String := p.getLastD ""

/-- Look up the kind of a path in the image. -/
def lookupFS (fs : FS) (p : IPath) : Option FileKind :=
  (fs.find? (fun e => e.1 == p)).map (fun e => e.2)

/-- Resolve a symlink's target one level, relative to the link's own
directory unless absolute (`full_path.parent / target` resolved). -/
def linkResolved (path : IPath) (isAbs : Bool) (tgt : IPath) : IPath :=
  if isAbs then tgt else normPath (path.dropLast ++ tgt)

/-- Symlink-target computation of the symlink scanning pass, which does
*not* call `.resolve()` (`target = full_path.parent / target`). -/
def linkTargetRaw (path : IPath) (isAbs : Bool) (tgt : IPath) : IPath :=
  if isAbs then tgt else path.dropLast ++ tgt

/-- The target-specific binary-inspection interface consumed by
`_fixup_binaries` (external collaborator, modelled at its interface). -/
structure TargetOracle where
  is_binary_code_file : IPath → Bool
  is_dynamically_linked : IPath → Bool
  get_shlib_refs : IPath → List IPath × List IPath
  is_allowed_system_shlib : IPath → Bool

/-- `bin_paths[k].add(v)` on a `defaultdict(set)` keyed by basename. -/
def addBinPath (bp : List (String × List IPath)) (k : String) (v : IPath) :
    List (String × List IPath) :=
  if bp.any (fun e => e.1 == k) then
    bp.map (fun e =>
      if e.1 == k then (e.1, if v ∈ e.2 then e.2 else e.2 ++ [v]) else e)
  else
    bp ++ [(k, [v])]

/-- `bin_paths.get(shlib, set())`. -/
def lookupBinPaths (bp : List (String × List IPath)) (k : String) :
    List IPath :=
  ((bp.find? (fun e => e.1 == k)).map (fun e => e.2)).getD []

/-- Result of the first scanning loop of `_fixup_binaries`. -/
structure ScanState where
  binPaths : List (String × List IPath)
  binaries : List IPath
  refs : List (IPath × (List IPath × List IPath))
  symlinks : List (IPath × Bool × IPath)
deriving DecidableEq

/-- First loop of `_fixup_binaries`: collect symlinks for later, register
every binary code file under its basename, and record the shared-library
references and rpaths of every dynamically linked binary. -/
def scanFiles (t : TargetOracle) (fs : FS) : ScanState :=
  fs.foldl (fun st e =>
    match e.2 with
    | .symlink isAbs tgt =>
      { st with symlinks := st.symlinks ++ [(e.1, isAbs, tgt)] }
    | .regular _ =>
      if t.is_binary_code_file e.1 then
        { st with
          binPaths := addBinPath st.binPaths (basename e.1) e.1,
          binaries := st.binaries ++ [e.1],
          refs :=
            if t.is_dynamically_linked e.1 then
              st.refs ++ [(e.1, t.get_shlib_refs e.1)]
            else st.refs }
      else st)
    ⟨[], [], [], []⟩

/-- Second loop of `_fixup_binaries`: register every symlink that points
at a registered binary under the symlink's own basename. -/
def registerSymlinks (st : ScanState) : List (String × List IPath) :=
  st.symlinks.foldl (fun bp sl =>
    if linkTargetRaw sl.1 sl.2.1 sl.2.2 ∈ st.binaries then
      addBinPath bp (basename sl.1) sl.1
    else bp) st.binPaths

/-- The structured content of the two `AssertionError` messages of the
sanity-check loop (the spec's `LinkageIntegrityError`): a library absent
from every declared rpath, or a binary declaring no rpath at all. -/
inductive LinkageError where
  | notInRpath (binary : IPath) (shlib : String) (rpaths : List IPath)
  | noRpath (binary : IPath) (shlib : String)
deriving DecidableEq

/-- A validation failure: a linkage error, or a filesystem error raised
by `shutil.copy2` when a provider symlink's target is not a readable
regular file. -/
inductive FixupError where
  | linkage (e : LinkageError)
  | internal
deriving DecidableEq

/-- `used_shlibs.add` / `to_remove.add` (Python set insertion). -/
def addIfAbsent (l : List IPath) (p : IPath) : List IPath :=
  if p ∈ l then l else l ++ [p]

/-- The rpath scan for one shared library: the first rpath whose joined,
resolved candidate path is among the bundled providers wins. -/
def findProvider (bundled : List IPath) (rpaths : List IPath)
    (shlib : String) : Option IPath :=
  match rpaths with
  | [] => none
  | rp :: rest =>
    if normPath (rp ++ [shlib]) ∈ bundled then some (normPath (rp ++ [shlib]))
    else findProvider bundled rest shlib

/-- Consolidation of a matched provider path: mark it used; if it is a
symlink, replace it in place by a regular file with the real target's
bytes (`os.unlink` + `shutil.copy2`) and schedule the fully-versioned
real file for removal.  `none` models `shutil.copy2` failing because the
resolved real path is not a regular file. -/
def consolidate (fs : FS) (toRemove used : List IPath) (cand : IPath) :
    Option (FS × List IPath × List IPath) :=
  match lookupFS fs cand with
  | some (.symlink isAbs tgt) =>
    match lookupFS fs (linkResolved cand isAbs tgt) with
    | some (.regular content) =>
      some (fs.map (fun e =>
          if e.1 == cand then (e.1, .regular content) else e),
        addIfAbsent toRemove (linkResolved cand isAbs tgt),
        addIfAbsent used cand)
    | _ => none
  | _ => some (fs, toRemove, addIfAbsent used cand)

/-- Sanity check and consolidation for one referenced shared library of
one binary. -/
def processShlib (t : TargetOracle) (binary : IPath) (rpaths : List IPath)
    (bp : List (String × List IPath)) (fs : FS)
    (toRemove used : List IPath) (shlibRef : IPath) :
    Except FixupError (FS × List IPath × List IPath) :=
  if t.is_allowed_system_shlib shlibRef then .ok (fs, toRemove, used)
  else
    match findProvider (lookupBinPaths bp (basename shlibRef)) rpaths
        (basename shlibRef) with
    | some cand =>
      match consolidate fs toRemove used cand with
      | some r => .ok r
      | none => .error .internal
    | none =>
      if rpaths.isEmpty then
        .error (.linkage (.noRpath binary (basename shlibRef)))
      else
        .error (.linkage (.notInRpath binary (basename shlibRef) rpaths))

/-- All referenced shared libraries of one binary, in declared order. -/
def processShlibs (t : TargetOracle) (binary : IPath) (rpaths : List IPath)
    (bp : List (String × List IPath)) :
    List IPath → FS → List IPath → List IPath →
    Except FixupError (FS × List IPath × List IPath)
  | [], fs, toRemove, used => .ok (fs, toRemove, used)
  | sh :: rest, fs, toRemove, used =>
    match processShlib t binary rpaths bp fs toRemove used sh with
    | .ok (fs', tr', u') =>
      processShlibs t binary rpaths bp rest fs' tr' u'
    | .error e => .error e

/-- The sanity-check loop over all recorded (binary, refs, rpaths). -/
def processRefs (t : TargetOracle) (bp : List (String × List IPath)) :
    List (IPath × (List IPath × List IPath)) → FS → List IPath →
    List IPath → Except FixupError (FS × List IPath × List IPath)
  | [], fs, toRemove, used => .ok (fs, toRemove, used)
  | (b, (shlibs, rpaths)) :: rest, fs, toRemove, used =>
    match processShlibs t b rpaths bp shlibs fs toRemove used with
    | .ok (fs', tr', u') => processRefs t bp rest fs' tr' u'
    | .error e => .error e

/-- `_remove_so_symlinks`: delete every symlink in `path`'s directory
that resolves to `path`. -/
def removeSoSymlinks (fs : FS) (path : IPath) : FS :=
  fs.filter (fun e =>
    match e.2 with
    | .symlink isAbs tgt =>
      !(e.1.dropLast == path.dropLast
        && (if isAbs then tgt
            else normPath (e.1.dropLast ++ tgt)) == path)
    | .regular _ => true)

/-- `path.unlink()`. -/
def unlinkFS (fs : FS) (path : IPath) : FS :=
  fs.filter (fun e => e.1 != path)

/-- Final cleanup of `_fixup_binaries`: delete every removal candidate
that is not itself used (with its dangling symlinks), then drop symlinks
still pointing at used providers. -/
def cleanupRemovals (fs : FS) (toRemove used : List IPath) : FS :=
  let fs1 := (toRemove.filter (fun p => !(used.contains p))).foldl
    (fun acc p => unlinkFS (removeSoSymlinks acc p) p) fs
  used.foldl (fun acc p => removeSoSymlinks acc p) fs1

/-- `Build._fixup_binaries`: scan, register symlinked providers, check
every shared-library reference against the allow-list and the bundled
provider index, consolidate symlinked providers, and clean up
fully-versioned duplicates. -/
def fixupBinaries (t : TargetOracle) (fs : FS) : Except FixupError FS :=
  match processRefs t (registerSymlinks (scanFiles t fs))
      (scanFiles t fs).refs fs [] [] with
  | .ok (fs', toRemove, used) => .ok (cleanupRemovals fs' toRemove used)
  | .error e => .error e

/-- Well-formed image: every symlink resolves (one level) to a regular
file of the image — the premise under which `shutil.copy2` in the
consolidation step cannot fail. -/
def WFImage (fs : FS) : Prop :=
  ∀ e ∈ fs, ∀ isAbs tgt, e.2 = .symlink isAbs tgt →
    ∃ c, lookupFS fs (linkResolved e.1 isAbs tgt) = some (.regular c)

lemma lookupFS_map_replace (fs : FS) (cand q : IPath) (k : FileKind) :
    lookupFS (fs.map (fun e => if e.1 == cand then (e.1, k) else e)) q
      = (lookupFS fs q).map (fun kind => if q = cand then k else kind) := by
  unfold lookupFS
  rw [List.find?_map]
  have hcomp : ((fun e : IPath × FileKind => e.1 == q) ∘
      (fun e : IPath × FileKind => if e.1 == cand then (e.1, k) else e))
      = fun e : IPath × FileKind => e.1 == q := by
    funext e
    by_cases hc : (e.1 == cand) = true <;> simp [Function.comp, hc]
  rw [hcomp]
  cases hfind : fs.find? (fun e => e.1 == q) with
  | none => simp
  | some e0 =>
    have he0 : e0.1 = q := by
      have := List.find?_some hfind
      simpa using this
    by_cases hqc : q = cand
    · have hbc : (e0.1 == cand) = true := by simp [he0, hqc]
      simp [hbc, hqc, he0]
    · have hbc : (e0.1 == cand) = false := by simp [he0, hqc]
      simp [hbc, hqc, he0]

lemma consolidate_wf (fs : FS) (tr u : List IPath) (cand : IPath)
    (hwf : WFImage fs) :
    ∃ r, consolidate fs tr u cand = some r ∧ WFImage r.1 := by
  cases hlk : lookupFS fs cand with
  | none =>
    refine ⟨(fs, tr, addIfAbsent u cand), ?_, hwf⟩
    simp only [consolidate, hlk]
  | some kind =>
    cases kind with
    | regular c =>
      refine ⟨(fs, tr, addIfAbsent u cand), ?_, hwf⟩
      simp only [consolidate, hlk]
    | symlink isAbs tgt =>
      have hentry : ∃ e ∈ fs, e.1 = cand ∧ e.2 = .symlink isAbs tgt := by
        unfold lookupFS at hlk
        cases hfind : fs.find? (fun e => e.1 == cand) with
        | none => rw [hfind] at hlk; exact absurd hlk (by simp)
        | some e0 =>
          rw [hfind] at hlk
          have h1 : e0.1 = cand := by
            have := List.find?_some hfind
            simpa using this
          have h2 : e0.2 = .symlink isAbs tgt := by simpa using hlk
          exact ⟨e0, List.mem_of_find?_eq_some hfind, h1, h2⟩
      obtain ⟨e0, he0, he0p, he0k⟩ := hentry
      obtain ⟨c, hc⟩ := hwf e0 he0 isAbs tgt he0k
      rw [he0p] at hc
      refine ⟨(fs.map (fun e =>
          if e.1 == cand then (e.1, .regular c) else e),
        addIfAbsent tr (linkResolved cand isAbs tgt),
        addIfAbsent u cand), ?_, ?_⟩
      · simp only [consolidate, hlk, hc]
      · intro e' he' isAbs' tgt' he'k
        rw [List.mem_map] at he'
        obtain ⟨e, he, hee⟩ := he'
        by_cases hec : (e.1 == cand) = true
        · rw [← hee] at he'k
          simp only [if_pos hec] at he'k
          exact absurd he'k (by simp)
        · rw [← hee] at he'k ⊢
          simp only [if_neg hec] at he'k ⊢
          obtain ⟨c', hc'⟩ := hwf e he isAbs' tgt' he'k
          refine ⟨if linkResolved e.1 isAbs' tgt' = cand then c else c', ?_⟩
          rw [lookupFS_map_replace, hc']
          by_cases hrc : linkResolved e.1 isAbs' tgt' = cand
          · simp [hrc]
          · simp [hrc]

lemma processShlib_cases (t : TargetOracle) (b : IPath) (rps : List IPath)
    (bp : List (String × List IPath)) (fs : FS) (tr u : List IPath)
    (L : IPath) (hwf : WFImage fs) :
    (∃ fs' tr' u',
        processShlib t b rps bp fs tr u L = .ok (fs', tr', u')
          ∧ WFImage fs')
    ∨ (processShlib t b rps bp fs tr u L
        = .error (.linkage (if rps.isEmpty then .noRpath b (basename L)
            else .notInRpath b (basename L) rps))
       ∧ t.is_allowed_system_shlib L = false
       ∧ findProvider (lookupBinPaths bp (basename L)) rps (basename L)
           = none) := by
  by_cases hall : t.is_allowed_system_shlib L = true
  · left
    exact ⟨fs, tr, u, by simp only [processShlib, if_pos hall], hwf⟩
  · have hall' : t.is_allowed_system_shlib L = false := by
      cases hfl : t.is_allowed_system_shlib L
      · rfl
      · exact absurd hfl hall
    cases hfp : findProvider (lookupBinPaths bp (basename L)) rps
        (basename L) with
    | some cand =>
      left
      obtain ⟨r, hr, hwf'⟩ := consolidate_wf fs tr u cand hwf
      refine ⟨r.1, r.2.1, r.2.2, ?_, hwf'⟩
      simp only [processShlib, if_neg hall, hfp, hr]
    | none =>
      right
      refine ⟨?_, hall', rfl⟩
      simp only [processShlib, if_neg hall, hfp]
      by_cases hre : rps.isEmpty = true
      · simp [hre]
      · simp [hre]

lemma processShlibs_cases (t : TargetOracle) (b : IPath) (rps : List IPath)
    (bp : List (String × List IPath)) :
    ∀ (shlibs : List IPath) (fs : FS) (tr u : List IPath), WFImage fs →
    (∃ fs' tr' u',
        processShlibs t b rps bp shlibs fs tr u = .ok (fs', tr', u')
          ∧ WFImage fs')
    ∨ (∃ L ∈ shlibs,
        processShlibs t b rps bp shlibs fs tr u
          = .error (.linkage (if rps.isEmpty then .noRpath b (basename L)
              else .notInRpath b (basename L) rps))
        ∧ t.is_allowed_system_shlib L = false
        ∧ findProvider (lookupBinPaths bp (basename L)) rps (basename L)
            = none) := by
  intro shlibs
  induction shlibs with
  | nil =>
    intro fs tr u hwf
    left
    exact ⟨fs, tr, u, rfl, hwf⟩
  | cons sh rest ih =>
    intro fs tr u hwf
    rcases processShlib_cases t b rps bp fs tr u sh hwf with
      ⟨fs', tr', u', hok, hwf'⟩ | ⟨herr, hfl, hfp⟩
    · rcases ih fs' tr' u' hwf' with
        ⟨fs'', tr'', u'', hok2, hwf2⟩ | ⟨L, hL, herr2, h1, h2⟩
      · left
        refine ⟨fs'', tr'', u'', ?_, hwf2⟩
        simp only [processShlibs, hok, hok2]
      · right
        refine ⟨L, List.mem_cons_of_mem sh hL, ?_, h1, h2⟩
        simp only [processShlibs, hok, herr2]
    · right
      refine ⟨sh, List.mem_cons_self sh rest, ?_, hfl, hfp⟩
      simp only [processShlibs, herr]

lemma processShlibs_ok_no_failure (t : TargetOracle) (b : IPath)
    (rps : List IPath) (bp : List (String × List IPath)) :
    ∀ (shlibs : List IPath) (fs : FS) (tr u : List IPath)
      (r : FS × List IPath × List IPath),
    processShlibs t b rps bp shlibs fs tr u = .ok r →
    ∀ L ∈ shlibs, t.is_allowed_system_shlib L = false →
    findProvider (lookupBinPaths bp (basename L)) rps (basename L)
      ≠ none := by
  intro shlibs
  induction shlibs with
  | nil =>
    intro fs tr u r _ L hL
    exact absurd hL (List.not_mem_nil L)
  | cons sh rest ih =>
    intro fs tr u r h L hL hfl hfp
    unfold processShlibs at h
    split at h
    · rename_i fs' tr' u' heq
      rcases List.mem_cons.mp hL with hL' | hL'
      · subst hL'
        rw [processShlib, if_neg (by simp [hfl])] at heq
        simp only [hfp] at heq
        by_cases hre : rps.isEmpty = true <;> simp [hre] at heq
      · exact ih fs' tr' u' r h L hL' hfl hfp
    · exact absurd h (by simp)

lemma processRefs_cases (t : TargetOracle)
    (bp : List (String × List IPath)) :
    ∀ (refs : List (IPath × (List IPath × List IPath))) (fs : FS)
      (tr u : List IPath), WFImage fs →
    (∃ r, processRefs t bp refs fs tr u = .ok r)
    ∨ (∃ b shlibs rps, (b, (shlibs, rps)) ∈ refs ∧ ∃ L ∈ shlibs,
        processRefs t bp refs fs tr u
          = .error (.linkage (if rps.isEmpty then .noRpath b (basename L)
              else .notInRpath b (basename L) rps))
        ∧ t.is_allowed_system_shlib L = false
        ∧ findProvider (lookupBinPaths bp (basename L)) rps (basename L)
            = none) := by
  intro refs
  induction refs with
  | nil =>
    intro fs tr u _
    left
    exact ⟨(fs, tr, u), rfl⟩
  | cons en rest ih =>
    intro fs tr u hwf
    obtain ⟨b, shlibs, rps⟩ := en
    rcases processShlibs_cases t b rps bp shlibs fs tr u hwf with
      ⟨fs', tr', u', hok, hwf'⟩ | ⟨L, hL, herr, h1, h2⟩
    · rcases ih fs' tr' u' hwf' with ⟨r, hok2⟩ |
        ⟨b', shlibs', rps', hmem, L, hL, herr2, h1, h2⟩
      · left
        refine ⟨r, ?_⟩
        simp only [processRefs, hok, hok2]
      · right
        refine ⟨b', shlibs', rps',
          List.mem_cons_of_mem _ hmem, L, hL, ?_, h1, h2⟩
        simp only [processRefs, hok, herr2]
    · right
      refine ⟨b, shlibs, rps, List.mem_cons_self _ rest, L, hL, ?_, h1, h2⟩
      simp only [processRefs, herr]

lemma processRefs_ok_no_failure (t : TargetOracle)
    (bp : List (String × List IPath)) :
    ∀ (refs : List (IPath × (List IPath × List IPath))) (fs : FS)
      (tr u : List IPath) (r : FS × List IPath × List IPath),
    processRefs t bp refs fs tr u = .ok r →
    ∀ b shlibs rps, (b, (shlibs, rps)) ∈ refs →
    ∀ L ∈ shlibs, t.is_allowed_system_shlib L = false →
    findProvider (lookupBinPaths bp (basename L)) rps (basename L)
      ≠ none := by
  intro refs
  induction refs with
  | nil =>
    intro fs tr u r _ b shlibs rps hmem
    exact absurd hmem (List.not_mem_nil _)
  | cons en rest ih =>
    intro fs tr u r h b shlibs rps hmem L hL hfl
    obtain ⟨b0, shlibs0, rps0⟩ := en
    unfold processRefs at h
    split at h
    · rename_i fs' tr' u' heq
      rcases List.mem_cons.mp hmem with hmem' | hmem'
      · have hb2 : shlibs = shlibs0 := congrArg (fun x => x.2.1) hmem'
        have hb3 : rps = rps0 := congrArg (fun x => x.2.2) hmem'
        rw [hb2] at hL
        rw [hb3]
        exact processShlibs_ok_no_failure t b0 rps0 bp shlibs0 fs tr u
          (fs', tr', u') heq L hL hfl
      · exact ih fs' tr' u' r h b shlibs rps hmem' L hL hfl
    · exact absurd h (by simp)

/-- C6: if a dynamically linked binary references a shared library that
is neither an allowed system library nor reachable through any of the
binary's rpaths in the bundled provider index, validation of a
well-formed image fails with a linkage error; and every linkage error
produced names a genuinely failing (binary, library) pair, carrying the
searched rpaths exactly when the binary declares any (`notInRpath`), and
the bare binary/library pair when the binary declares none
(`noRpath`). -/
theorem c6_unresolved_shlib_fails
    (t : TargetOracle) (fs : FS) (hwf : WFImage fs)
    (b : IPath) (libs rps : List IPath)
    (href : (b, (libs, rps)) ∈ (scanFiles t fs).refs)
    (L : IPath) (hL : L ∈ libs)
    (hnotallowed : t.is_allowed_system_shlib L = false)
    (hnomatch : findProvider
        (lookupBinPaths (registerSymlinks (scanFiles t fs)) (basename L))
        rps (basename L) = none) :
    (∃ e, fixupBinaries t fs = .error (.linkage e))
    ∧ (∀ e, fixupBinaries t fs = .error (.linkage e) →
        ∃ b' shlibs' rps', (b', (shlibs', rps')) ∈ (scanFiles t fs).refs
          ∧ ∃ L' ∈ shlibs',
            t.is_allowed_system_shlib L' = false
            ∧ findProvider (lookupBinPaths
                (registerSymlinks (scanFiles t fs)) (basename L'))
                rps' (basename L') = none
            ∧ e = (if rps'.isEmpty then .noRpath b' (basename L')
                else .notInRpath b' (basename L') rps')) := by
  have hdich := processRefs_cases t (registerSymlinks (scanFiles t fs))
    (scanFiles t fs).refs fs [] [] hwf
  rcases hdich with ⟨r, hok⟩ |
      ⟨b', shlibs', rps', hmem, L', hL', herr, h1, h2⟩
  · exact absurd hnomatch
      (processRefs_ok_no_failure t _ _ fs [] [] r hok b libs rps href L hL
        hnotallowed)
  · have hfix : fixupBinaries t fs
        = .error (.linkage (if rps'.isEmpty then .noRpath b' (basename L')
            else .notInRpath b' (basename L') rps')) := by
      simp only [fixupBinaries, herr]
    constructor
    · exact ⟨_, hfix⟩
    · intro e he
      rw [hfix] at he
      have : e = (if rps'.isEmpty then .noRpath b' (basename L')
          else .notInRpath b' (basename L') rps') := by
        have := Except.error.inj he
        exact (FixupError.linkage.inj this).symm
      exact ⟨b', shlibs', rps', hmem, L', hL', h1, h2, this⟩

/-- Witness for C6: `bin/app` references `libmissing.so` with no rpath at
all in an image with no symlinks; validation fails with a linkage
error. -/
theorem c6_witness :
    ∃ e, fixupBinaries
      { is_binary_code_file := fun p => p == ["bin", "app"]
        is_dynamically_linked := fun p => p == ["bin", "app"]
        get_shlib_refs := fun _ => ([[("libmissing.so" : String)]], [])
        is_allowed_system_shlib := fun _ => false }
      [(["bin", "app"], FileKind.regular "APP")]
      = .error (.linkage e) :=
  (c6_unresolved_shlib_fails
    { is_binary_code_file := fun p => p == ["bin", "app"]
      is_dynamically_linked := fun p => p == ["bin", "app"]
      get_shlib_refs := fun _ => ([[("libmissing.so" : String)]], [])
      is_allowed_system_shlib := fun _ => false }
    [(["bin", "app"], FileKind.regular "APP")]
    (by
      intro e he isAbs tgt hk
      rw [List.mem_singleton] at he
      subst he
      exact absurd hk (by simp))
    ["bin", "app"] [["libmissing.so"]] []
    (by decide)
    ["libmissing.so"] (by decide) (by decide) (by decide)).1

/-- The §8 example image: `bin/app`, the fully-versioned library
`lib/libfoo.so.1`, and `lib/libfoo.so` a symlink to it. -/
def soImage : FS :=
  [(["bin", "app"], .regular "APP"),
   (["lib", "libfoo.so.1"], .regular "FOO"),
   (["lib", "libfoo.so"], .symlink false ["libfoo.so.1"])]

/-- Target oracle for the §8 example: `bin/app` is a dynamically linked
binary referencing `refname` with rpath `/lib`; the library file is
binary code; nothing is an allowed system library. -/
def soTarget (refname : String) : TargetOracle :=
  { is_binary_code_file := fun p =>
      p == ["bin", "app"] || p == ["lib", "libfoo.so.1"]
    is_dynamically_linked := fun p => p == ["bin", "app"]
    get_shlib_refs := fun _ => ([[refname]], [["lib"]])
    is_allowed_system_shlib := fun _ => false }

/-- Counterexample to C7 as stated: in the §8 image, when the app's
library reference is literally `libfoo.so.1`, post-validation
`lib/libfoo.so.1` is still present as a regular file and no
`lib/libfoo.so` exists at all — so "`libfoo.so.1` is gone, and a single
regular file `libfoo.so` remains" fails; only the symlink is removed. -/
theorem c7_counterexample :
    fixupBinaries (soTarget "libfoo.so.1") soImage
      = .ok [(["bin", "app"], FileKind.regular "APP"),
             (["lib", "libfoo.so.1"], FileKind.regular "FOO")]
    ∧ lookupFS [(["bin", "app"], FileKind.regular "APP"),
          (["lib", "libfoo.so.1"], FileKind.regular "FOO")]
        ["lib", "libfoo.so"] = none
    ∧ lookupFS [(["bin", "app"], FileKind.regular "APP"),
          (["lib", "libfoo.so.1"], FileKind.regular "FOO")]
        ["lib", "libfoo.so.1"] = some (FileKind.regular "FOO") :=
  ⟨rfl, rfl, rfl⟩

/-- C7 amended: the stated §8 outcome (symlink gone, `libfoo.so.1` gone,
a single regular `libfoo.so` with the real file's bytes) holds when the
app's reference resolves to the symlink `lib/libfoo.so`, making the
symlink the matched provider; when the app references `libfoo.so.1`
directly, the symlink is removed and `libfoo.so.1` itself remains as the
single regular file of the library.  In both cases exactly one regular
file per logical shared library remains and no symlink survives. -/
theorem c7_consolidation_amended :
    fixupBinaries (soTarget "libfoo.so") soImage
      = .ok [(["bin", "app"], FileKind.regular "APP"),
             (["lib", "libfoo.so"], FileKind.regular "FOO")]
    ∧ fixupBinaries (soTarget "libfoo.so.1") soImage
      = .ok [(["bin", "app"], FileKind.regular "APP"),
             (["lib", "libfoo.so.1"], FileKind.regular "FOO")] :=
  ⟨rfl, rfl⟩

end Metapkg
